import Mathlib

/-!
Verification of the link-extraction and graph-building engine of
`vimwikigraph` (files `vimwikigraph.go`, `main.go`).

The Go source is shallowly embedded: every function of the repository that
the claims mention is translated to an executable Lean definition of the
same name.  Strings are modelled as Lean `String` (lists of unicode code
points; the Go code only ever slices at ASCII delimiters, where byte and
rune indices agree).  The Go standard-library collaborators used by the
code (`path/filepath.Clean/Join/Ext/Dir/Split`, `strings.Trim/Contains/
Index`) are embedded from their documented unix semantics.  `regexp` is
embedded concretely for the two fixed patterns `wikiref` and `markdownref`
(Go RE2 leftmost match with greedy `.*`, where `.` matches any rune except
newline and a negated class `[^..]` also matches newline), and abstractly
(as a `String → Bool` matcher) for the user-supplied ignore pattern.
Go's `map[string][]string` is modelled as an association list keyed by
strings; map iteration order, which Go leaves unspecified, is the list
order.
-/

set_option maxRecDepth 40000

namespace Vimwikigraph

/-! ### Generic list helpers -/

/-- Insertion-order deduplication, keeping the first occurrence: models the
create-or-fetch behaviour of the `dot` library's `Node(id)` calls. -/
def dedupKeep [DecidableEq α] (l : List α) : List α :=
  l.foldl (fun acc a => if a ∈ acc then acc else acc ++ [a]) []

/-- Interleave `gaps` and `matches` (`gaps` is one longer): the shape of a
line whose matches are non-overlapping and in left-to-right order. -/
def glue : List (List Char) → List (List Char) → List Char
  | [g], [] => g
  | g :: gs, m :: ms => g ++ m ++ glue gs ms
  | _, _ => []

/-- Index of the last occurrence of `c`, if any. -/
def lastIdxOf (l : List Char) (c : Char) : Option Nat :=
  match l with
  | [] => none
  | a :: tl =>
    match lastIdxOf tl c with
    | some i => some (i + 1)
    | none => if a = c then some 0 else none

/-- Scan for `sub` as a contiguous sub-list of `l` (the search loop behind
Go `strings.Contains`). -/
def subScan (sub : List Char) (l : List Char) : Bool :=
  if sub.isPrefixOf l then true
  else
    match l with
    | [] => false
    | _ :: tl => subScan sub tl

/-! ### Go standard library: `strings` -/

/-- Go `strings.Trim(s, cutset)`: remove all leading and trailing code
points contained in `cutset`. -/
def strings_Trim (s cutset : String) : String :=
  String.mk (((s.data.dropWhile (fun c => cutset.data.contains c)).reverse.dropWhile
    (fun c => cutset.data.contains c)).reverse)

/-- Go `strings.Contains(s, substr)`. -/
def strings_Contains (s substr : String) : Bool :=
  subScan substr.data s.data

/-- Go `strings.Index(s, c)` for a single-character separator: the index
of the first occurrence, `none` standing for Go's `-1`. -/
def strings_Index (l : List Char) (c : Char) : Option Nat :=
  match l with
  | [] => none
  | a :: tl => if a = c then some 0 else (strings_Index tl c).map (· + 1)

/-! ### Go standard library: `path/filepath` (unix separator `/`) -/

/-- Split a character list at every `/` (the segment view of the byte scan
of Go `filepath.Clean`); `acc` holds the current segment in reverse. -/
def splitOnSlash (acc : List Char) : List Char → List (List Char)
  | [] => [acc.reverse]
  | c :: tl =>
    if c = '/' then acc.reverse :: splitOnSlash [] tl else splitOnSlash (c :: acc) tl

/-- Re-join segments with `/`. -/
def joinSlash : List (List Char) → List Char
  | [] => []
  | [s] => s
  | s :: rest => s ++ '/' :: joinSlash rest

/-- The segment-stack loop of Go `filepath.Clean`: `.` and empty segments
are dropped, `..` pops the previous segment (kept literally at the front of
a relative path, dropped at the root of a rooted path).  The accumulator
holds the output segments in reverse. -/
def cleanSegs (rooted : Bool) : List (List Char) → List (List Char) → List (List Char)
  | acc, [] => acc.reverse
  | acc, s :: rest =>
    if s = [] ∨ s = ['.'] then cleanSegs rooted acc rest
    else if s = ['.', '.'] then
      match acc with
      | [] =>
        if rooted then cleanSegs rooted [] rest
        else cleanSegs rooted [['.', '.']] rest
      | a :: tl =>
        if a = ['.', '.'] then cleanSegs rooted (s :: a :: tl) rest
        else cleanSegs rooted tl rest
    else cleanSegs rooted (s :: acc) rest

/-- Go `filepath.Clean` (unix). -/
def filepath_Clean (p : String) : String :=
  if p = "" then "."
  else
    let rooted := p.data.head? = some '/'
    let body := joinSlash (cleanSegs rooted [] (splitOnSlash [] p.data))
    if rooted then String.mk ('/' :: body)
    else if body = [] then "." else String.mk body

/-- Go `filepath.Join(a, b)`: join the non-empty elements with `/` and
`Clean` the result; all-empty input yields `""`. -/
def filepath_Join (a b : String) : String :=
  if a = "" then (if b = "" then "" else filepath_Clean b)
  else filepath_Clean (a ++ "/" ++ b)

/-- The backwards scan of Go `filepath.Ext`: walk the reversed path,
stopping at a path separator; on the first `.` return the suffix from
there (accumulated in `acc`). -/
def extRevScan : List Char → List Char → Option (List Char)
  | _, [] => none
  | acc, c :: rest =>
    if c = '/' then none
    else if c = '.' then some (c :: acc)
    else extRevScan (c :: acc) rest

/-- Go `filepath.Ext`. -/
def filepath_Ext (p : String) : String :=
  match extRevScan [] p.data.reverse with
  | some e => String.mk e
  | none => ""

/-- The directory part of Go `filepath.Split`: everything up to and
including the final `/` (empty if there is no separator). -/
def splitDirPart (p : String) : String :=
  match lastIdxOf p.data '/' with
  | none => ""
  | some i => String.mk (p.data.take (i + 1))

/-- Go `filepath.Dir`: the `Split` directory part, `Clean`ed. -/
def filepath_Dir (p : String) : String :=
  filepath_Clean (splitDirPart p)

/-! ### The two link regexes (`vimwikigraph.go` lines 16-17)

`wikiref = \[\[([^\[\]]*)\]\]` and `markdownref = \[(.*)\]\((.*)\)` are
fixed patterns; Go RE2 matching for them is embedded concretely.
`FindAllString(text, -1)` returns the successive non-overlapping leftmost
matches; for each start position the greedy quantifiers take the longest
viable extent. -/

def wikiref : String := "\\[\\[([^\\[\\]]*)\\]\\]"

def markdownref : String := "\\[(.*)\\]\\((.*)\\)"

/-- Character class `[^\[\]]` of `wikiref` (a negated class matches any
rune, including newline, other than the listed ones). -/
def wikiRunP (c : Char) : Bool := c != '[' && c != ']'

/-- Attempt the leftmost `wikiref` match anchored at the head of `cs`:
`[[`, then the greedy bracket-free run, then `]]` (the class cannot match
`]`, so no backtracking is possible).  Returns the matched text and the
remaining input. -/
def wikiMatchAt (cs : List Char) : Option (List Char × List Char) :=
  match cs with
  | c1 :: c2 :: rest =>
    if c1 = '[' ∧ c2 = '[' then
      match rest.dropWhile wikiRunP with
      | ']' :: ']' :: tail =>
        some ('[' :: '[' :: (rest.takeWhile wikiRunP ++ [']', ']']), tail)
      | _ => none
    else none
  | _ => none

/-- `FindAllString(text, -1)` for `wikiref`, driven by a fuel counter
(each step consumes at least one character, so `cs.length` fuel is always
enough; `wikiFindAll_pos` and `wikiFindAll_neg` below prove the fuel-free recursion laws): scan
left to right; on a match continue after it, otherwise advance one
position. -/
def wikiFindAllAux : Nat → List Char → List (List Char)
  | 0, _ => []
  | fuel + 1, cs =>
    match wikiMatchAt cs with
    | some (m, rest) => m :: wikiFindAllAux fuel rest
    | none =>
      match cs with
      | [] => []
      | _ :: tl => wikiFindAllAux fuel tl

def wikiFindAll (cs : List Char) : List (List Char) :=
  wikiFindAllAux cs.length cs

/-- `.` of `markdownref` matches any rune except newline. -/
def mdRunP (c : Char) : Bool := c != '\n'

/-- Decidable witness check used by `markdownMatchAt`: some position `j`
carries the middle `](` of `markdownref`, with the closing `)` at index
`L` still to its right. -/
def hasSep (run : List Char) (L : Nat) : Bool :=
  (List.range L).any (fun j =>
    decide (1 ≤ j) && decide (j + 2 ≤ L) &&
      (run.getD j ' ' == ']') && (run.getD (j + 1) ' ' == '('))

/-- Attempt the leftmost `markdownref` match anchored at the head of `cs`.
Both `(.*)` groups are greedy and `.` cannot cross a newline, so a match
anchored at `[` extends to the last `)` of the newline-free run, provided
some `](` occurs before it; the group boundaries do not affect the matched
text. -/
def markdownMatchAt (cs : List Char) : Option (List Char × List Char) :=
  match cs with
  | [] => none
  | c :: _ =>
    if c = '[' then
      match lastIdxOf (cs.takeWhile mdRunP) ')' with
      | none => none
      | some L =>
        if hasSep (cs.takeWhile mdRunP) L then
          some ((cs.takeWhile mdRunP).take (L + 1), cs.drop (L + 1))
        else none
    else none

/-- `FindAllString(text, -1)` for `markdownref`, fuel-driven like
`wikiFindAllAux` (`markdownFindAll_eq` below proves the fuel-free
recursion law). -/
def markdownFindAllAux : Nat → List Char → List (List Char)
  | 0, _ => []
  | fuel + 1, cs =>
    match markdownMatchAt cs with
    | some (m, rest) => m :: markdownFindAllAux fuel rest
    | none =>
      match cs with
      | [] => []
      | _ :: tl => markdownFindAllAux fuel tl

def markdownFindAll (cs : List Char) : List (List Char) :=
  markdownFindAllAux cs.length cs

/-! ### The `Wiki` structure (`vimwikigraph.go` lines 19-48)

`graph map[string][]string` is an association list (Go map iteration order
is unspecified; the list order models one such order).  The compiled
`ignored *regexp.Regexp` is abstracted to its `Match` function
`String → Bool`; `nil` is `none`.  The two built-in link regexes are the
concrete matchers above, so they are not stored. -/

structure Wiki where
  root : String
  graph : List (String × List String)
  remap : List (String × String)
  cluster : Bool
  ignorePath : String
  ignored : Option (String → Bool)

/-- Go map read `graph[key]` (zero value `[]` when absent). -/
def graphGet (g : List (String × List String)) (key : String) : List String :=
  match g.find? (fun kv => kv.1 == key) with
  | some kv => kv.2
  | none => []

/-- Go map write `graph[key] = v`. -/
def graphSet (g : List (String × List String)) (key : String) (v : List String) :
    List (String × List String) :=
  match g with
  | [] => [(key, v)]
  | kv :: rest => if kv.1 = key then (key, v) :: rest else kv :: graphSet rest key v

/-- `unique` (`vimwikigraph.go` lines 300-307): true when `s` is not
present in `vals`. -/
def unique (s : String) : List String → Bool
  | [] => true
  | v :: vs => if s = v then false else unique s vs

/-- `Insert` on the bare adjacency map (`vimwikigraph.go` lines 75-80). -/
def insertGraph (g : List (String × List String)) (key value : String) :
    List (String × List String) :=
  if unique value (graphGet g key) then graphSet g key (graphGet g key ++ [value]) else g

/-- `Wiki.Insert` (`vimwikigraph.go` lines 75-80). -/
def Wiki.Insert (w : Wiki) (key value : String) : Wiki :=
  { w with graph := insertGraph w.graph key value }

/-- The loop body of `Remap` over the configured pairs (`vimwikigraph.go`
lines 88-95), starting from the already-joined target. -/
def remapApply (pairs : List (String × String)) (dir key m : String) : String × String :=
  pairs.foldl
    (fun st kv =>
      (if kv.1 = dir then kv.2 else st.1,
       if strings_Contains st.2 kv.1 then kv.2 else st.2))
    (key, filepath_Join dir m)

/-- `Wiki.Remap` (`vimwikigraph.go` lines 82-98): join the current
directory with the link, then apply every remap pair. -/
def Wiki.Remap (w : Wiki) (dir key m : String) : String × String :=
  remapApply w.remap dir key m

/-- `Wiki.IgnorePath` (`vimwikigraph.go` lines 193-202). -/
def Wiki.IgnorePath (w : Wiki) (path : String) : Bool :=
  match w.ignored with
  | none => false
  | some m => m path

/-! ### Link extraction (`vimwikigraph.go` lines 126-191) -/

/-- `WikiLinks` (`vimwikigraph.go` lines 146-148). -/
def WikiLinks (text : String) : List String :=
  (wikiFindAll text.data).map String.mk

/-- `MarkdownLinks` (`vimwikigraph.go` lines 151-153). -/
def MarkdownLinks (text : String) : List String :=
  (markdownFindAll text.data).map String.mk

/-- The `strings.Index` + `link[:idx]` description split of
`ParseWikiLinks` (`vimwikigraph.go` lines 181-184): cut at the first `|`
only when it is not the first character. -/
def splitDescr (s : String) : String :=
  match strings_Index s.data '|' with
  | some idx => if 0 < idx then String.mk (s.data.take idx) else s
  | none => s

/-- `ParseWikiLinks` (`vimwikigraph.go` lines 176-191). -/
def ParseWikiLinks (link : String) : String :=
  let l1 := strings_Trim link "[]"
  let l2 := splitDescr l1
  if filepath_Ext l2 ≠ ".md" ∧ filepath_Ext l2 ≠ ".wiki" then l2 ++ ".wiki" else l2

/-- `ParseMarkdownLinks` (`vimwikigraph.go` lines 156-173).  Go slices at
the byte index of the first `(`; when there is none, `strings.Index`
returns `-1` and `link[-1:]` panics, modelled as `none`. -/
def ParseMarkdownLinks (link : String) : Option String :=
  match strings_Index link.data '(' with
  | none => none
  | some idx =>
    let l1 := strings_Trim (String.mk (link.data.drop idx)) "()"
    if filepath_Ext l1 = ".md" ∨ filepath_Ext l1 = ".wiki" then some l1
    else if filepath_Ext l1 = "" then some (l1 ++ ".md") else some ""

/-- `Links` (`vimwikigraph.go` lines 126-143).  Each markdown slice entry
is overwritten with its parsed form only when that parse is non-empty;
otherwise the raw match text stays in the returned slice.  A panic inside
`ParseMarkdownLinks` propagates (`none`). -/
def Links (text : String) : Option (List String) :=
  match (MarkdownLinks text).mapM
      (fun m => (ParseMarkdownLinks m).map (fun link => if link ≠ "" then link else m)) with
  | none => none
  | some mds => some ((WikiLinks text).map ParseWikiLinks ++ mds)

/-! ### Document scanning (`vimwikigraph.go` lines 52-73 and 204-243) -/

/-- The per-link loop body of `Add` (`vimwikigraph.go` lines 229-240).
The Go code reassigns `key` from `Remap`'s first result, so the key is
threaded through the fold together with the wiki. -/
def procLinks (dir : String) : Wiki × String → List String → Wiki × String
  | st, [] => st
  | (w, key), link :: rest =>
    if w.IgnorePath link then procLinks dir (w, key) rest
    else
      procLinks dir
        (w.Insert (w.Remap dir key link).1 (w.Remap dir key link).2,
         (w.Remap dir key link).1) rest

/-- One iteration of the `scanner.Scan()` loop of `Add` (`vimwikigraph.go`
lines 228-241): extract the line's links and run the per-link loop; a
parse panic propagates. -/
def procLine (dir : String) (st : Wiki × String) (line : String) : Option (Wiki × String) :=
  match Links line with
  | none => none
  | some links => some (procLinks dir st links)

/-- `Wiki.Add` (`vimwikigraph.go` lines 204-243), with the document's text
supplied as its list of scanned lines.  The key is the path made relative
to `wiki.root` by `filepath.Rel`; we model runs with `root = "."`, where
the walked path is already the root-relative key. -/
def Wiki.Add (w : Wiki) (path : String) (lines : List String) : Option Wiki :=
  let key := path
  let dir := filepath_Dir key
  let w1 : Wiki :=
    if (w.graph.find? (fun kv => kv.1 == key)).isSome then w
    else { w with graph := w.graph ++ [(key, [])] }
  match lines.foldlM (procLine dir) (w1, key) with
  | none => none
  | some st => some st.1

/-- `Wiki.Walk` (`vimwikigraph.go` lines 52-73) restricted to the core
per-file behaviour: the collaborator `filepath.Walk` enumerates the files
(directory skipping happens there); each enumerated file is ignored when
`IgnorePath` matches it and otherwise passed to `Add`. -/
def Wiki.Walk (w : Wiki) (files : List (String × List String)) : Option Wiki :=
  files.foldlM
    (fun w f => if w.IgnorePath f.1 then some w else w.Add f.1 f.2) w

/-! ### `CompileExpressions`, `newWiki` and `main`
(`vimwikigraph.go` lines 38-48 and 101-123, `main.go` lines 68-115)

`regexp.Compile` is a collaborator; it is abstracted as a function from a
pattern to either an error message or a compiled matcher. -/

/-- `CompileExpressions` (`vimwikigraph.go` lines 101-123): compile the two
built-in patterns, then the ignore pattern when it is non-empty; the first
error is returned.  The result is the compiled ignore matcher. -/
def CompileExpressions (compile : String → Except String (String → Bool))
    (ignore : String) : Except String (Option (String → Bool)) :=
  match compile wikiref with
  | .error e => .error e
  | .ok _ =>
    match compile markdownref with
    | .error e => .error e
    | .ok _ =>
      if ignore ≠ "" then
        match compile ignore with
        | .error e => .error e
        | .ok m => .ok (some m)
      else .ok none

/-- `newWiki` (`vimwikigraph.go` lines 38-48). -/
def newWiki (compile : String → Except String (String → Bool)) (dir : String)
    (remap : List (String × String)) (cluster : Bool) (ignore : String) :
    Except String Wiki :=
  match CompileExpressions compile ignore with
  | .error e => .error e
  | .ok m =>
    .ok { root := dir, graph := [], remap := remap, cluster := cluster,
          ignorePath := ignore, ignored := m }

/-- The fatal-error control flow of `main` (`main.go` lines 95-109): a
constructor error aborts before `Walk` ever runs. -/
def mainRun (compile : String → Except String (String → Bool)) (dir : String)
    (remap : List (String × String)) (cluster : Bool) (ignore : String)
    (files : List (String × List String)) : Except String (Option Wiki) :=
  match newWiki compile dir remap cluster ignore with
  | .error e => .error e
  | .ok w => .ok (w.Walk files)

/-! ### `Dot` (`vimwikigraph.go` lines 254-297)

The `dot` collaborator library creates nodes by identifier within a scope
(the root graph or one subgraph per directory), and `FindEdges` lets the
code skip an edge already present between two node handles.  A node handle
is modelled as the pair (scope, identifier); the rendered node and edge
lists are the create-or-fetch orders, deduplicated. -/

/-- The subgraph scope chosen for an identifier (`vimwikigraph.go`
lines 271-277 and 281-287): its `filepath.Split` directory part when
clustering is on and the part is non-empty, else the root graph. -/
def nodeRef (cluster : Bool) (id : String) : Option String × String :=
  (if cluster ∧ splitDirPart id ≠ "" then some (splitDirPart id) else none, id)

/-- The entries of `wiki.graph` surviving the level filter
(`vimwikigraph.go` lines 265-267): those with at least `level` outgoing
edges.  `level` is non-negative here (`Dot` takes a Go `int`). -/
def dotFiltered (w : Wiki) (level : Nat) : List (String × List String) :=
  w.graph.filter (fun kv => decide (level ≤ kv.2.length))

/-- The source identifiers drawn with their edges by `Dot`. -/
def dotSources (w : Wiki) (level : Nat) : List String :=
  (dotFiltered w level).map Prod.fst

/-- All node handles created by `Dot`, in creation order, deduplicated by
the library's create-or-fetch. -/
def dotNodes (w : Wiki) (level : Nat) : List (Option String × String) :=
  dedupKeep ((dotFiltered w level).flatMap
    (fun kv => nodeRef w.cluster kv.1 :: kv.2.map (nodeRef w.cluster)))

/-- All edges created by `Dot` (`graph.Edge(a, b)` guarded by
`FindEdges(a, b)`), as deduplicated handle pairs. -/
def dotEdges (w : Wiki) (level : Nat) :
    List ((Option String × String) × (Option String × String)) :=
  dedupKeep ((dotFiltered w level).flatMap
    (fun kv => kv.2.map (fun v => (nodeRef w.cluster kv.1, nodeRef w.cluster v))))

/-! ### Concrete wikis used by the claim theorems -/

/-- The wiki built by `TestMappingCollapse` (`main_test.go` lines 33-38):
remap table `{diary ↦ diary}`, no ignore pattern. -/
def collapseWiki : Wiki :=
  { root := ".", graph := [], remap := [("diary", "diary")], cluster := false,
    ignorePath := "", ignored := none }

/-- A wiki with no ignore pattern and no remap pairs. -/
def plainWiki : Wiki :=
  { root := ".", graph := [], remap := [], cluster := false,
    ignorePath := "", ignored := none }

/-- A wiki whose ignore pattern is `^diary/` (its compiled matcher accepts
exactly the strings with prefix `diary/`). -/
def ignoreWiki : Wiki :=
  { root := ".", graph := [], remap := [], cluster := false,
    ignorePath := "^diary/", ignored := some (fun s => "diary/".data.isPrefixOf s.data) }

/-- The ten-node level-filter scenario of the spec: node `ni` has
out-degree `i` over the nine shared targets `t1`..`t9`. -/
def levelWiki : Wiki :=
  { root := ".",
    graph :=
      [("n0", []), ("n1", ["t1"]), ("n2", ["t1", "t2"]), ("n3", ["t1", "t2", "t3"]),
       ("n4", ["t1", "t2", "t3", "t4"]), ("n5", ["t1", "t2", "t3", "t4", "t5"]),
       ("n6", ["t1", "t2", "t3", "t4", "t5", "t6"]),
       ("n7", ["t1", "t2", "t3", "t4", "t5", "t6", "t7"]),
       ("n8", ["t1", "t2", "t3", "t4", "t5", "t6", "t7", "t8"]),
       ("n9", ["t1", "t2", "t3", "t4", "t5", "t6", "t7", "t8", "t9"])],
    remap := [], cluster := false, ignorePath := "", ignored := none }

/-- A `regexp.Compile` behaviour for witnesses: every pattern compiles
except the lone `[`, which is malformed. -/
def compileStub : String → Except String (String → Bool) :=
  fun s => if s = "[" then .error "missing closing ]" else .ok (fun _ => false)

/-- `Bool`-valued success of an `Except` (Go `err == nil`). -/
def exceptOk (r : Except String α) : Bool :=
  match r with
  | .ok _ => true
  | .error _ => false

/-! ### Helper lemmas -/

theorem wikiMatchAt_some {cs m rest : List Char} (h : wikiMatchAt cs = some (m, rest)) :
    cs = m ++ rest ∧ 0 < m.length := by
  match cs with
  | [] => simp [wikiMatchAt] at h
  | [c1] => simp [wikiMatchAt] at h
  | c1 :: c2 :: r =>
    rw [wikiMatchAt] at h
    split at h
    · rename_i hbr
      split at h
      · rename_i tail hdrop
        injection h with h
        injection h with hm hrest
        obtain ⟨h1, h2⟩ := hbr
        subst h1 h2 hm hrest
        have hr : r.takeWhile wikiRunP ++ r.dropWhile wikiRunP = r :=
          List.takeWhile_append_dropWhile ..
        rw [hdrop] at hr
        constructor
        · simp only [List.cons_append, List.append_assoc, List.nil_append]
          rw [hr]
        · simp
      · exact absurd h (by simp)
    · exact absurd h (by simp)

theorem wikiMatchAt_some_length {cs m rest : List Char}
    (h : wikiMatchAt cs = some (m, rest)) : rest.length < cs.length := by
  obtain ⟨he, hp⟩ := wikiMatchAt_some h
  subst he
  simp only [List.length_append]
  omega

theorem lastIdxOf_lt_length {l : List Char} {c : Char} {i : Nat}
    (h : lastIdxOf l c = some i) : i < l.length := by
  induction l generalizing i with
  | nil => simp [lastIdxOf] at h
  | cons a tl ih =>
    rw [lastIdxOf] at h
    split at h
    · rename_i j hj
      injection h with h
      subst h
      have := ih hj
      simp
      omega
    · split at h
      · injection h with h
        subst h
        simp
      · exact absurd h (by simp)

theorem mem_take_of_getD {l : List Char} {n i : Nat} {c : Char}
    (hin : i < n) (hil : i < l.length) (hg : l.getD i ' ' = c) :
    c ∈ l.take n := by
  induction l generalizing i n with
  | nil => simp at hil
  | cons a tl ih =>
    match n, hin with
    | n + 1, _ =>
      match i with
      | 0 =>
        simp only [List.getD_cons_zero] at hg
        subst hg
        simp
      | i + 1 =>
        simp only [List.getD_cons_succ] at hg
        simp only [List.take_succ_cons, List.mem_cons]
        exact Or.inr (ih (by omega) (by simpa using hil) hg)

theorem hasSep_exists {run : List Char} {L : Nat} (h : hasSep run L = true) :
    ∃ j, 1 ≤ j ∧ j + 2 ≤ L ∧ run.getD j ' ' = ']' ∧ run.getD (j + 1) ' ' = '(' := by
  rw [hasSep, List.any_eq_true] at h
  obtain ⟨j, _, hj⟩ := h
  refine ⟨j, ?_, ?_, ?_, ?_⟩ <;> simp_all

theorem markdownMatchAt_some {cs m rest : List Char}
    (h : markdownMatchAt cs = some (m, rest)) :
    cs = m ++ rest ∧ 0 < m.length ∧ '(' ∈ m := by
  match cs with
  | [] => simp [markdownMatchAt] at h
  | c :: tl =>
    rw [markdownMatchAt] at h
    split at h
    · rename_i hc
      split at h
      · exact absurd h (by simp)
      · rename_i L hL
        split at h
        · rename_i hsep
          injection h with h
          injection h with hm hrest
          have hrun : (c :: tl).takeWhile mdRunP <+: (c :: tl) := List.takeWhile_prefix _
          have hLlt : L < ((c :: tl).takeWhile mdRunP).length := lastIdxOf_lt_length hL
          have hlen : ((c :: tl).takeWhile mdRunP).length ≤ (c :: tl).length :=
            hrun.length_le
          obtain ⟨t, ht⟩ := hrun
          have htake : ((c :: tl).takeWhile mdRunP).take (L + 1) = (c :: tl).take (L + 1) := by
            conv_rhs => rw [← ht]
            rw [List.take_append_of_le_length (by omega)]
          obtain ⟨j, hj1, hj2, _, hjp⟩ := hasSep_exists hsep
          constructor
          · rw [← hm, ← hrest, htake]
            exact (List.take_append_drop ..).symm
          constructor
          · rw [← hm]
            simp only [List.length_take]
            omega
          · rw [← hm]
            exact mem_take_of_getD (by omega) (by omega) hjp
        · exact absurd h (by simp)
    · exact absurd h (by simp)

theorem markdownMatchAt_some_length {cs m rest : List Char}
    (h : markdownMatchAt cs = some (m, rest)) : rest.length < cs.length := by
  obtain ⟨he, hp, _⟩ := markdownMatchAt_some h
  subst he
  simp only [List.length_append]
  omega

theorem wikiFindAllAux_succ (fuel : Nat) (cs : List Char) :
    wikiFindAllAux (fuel + 1) cs =
      match wikiMatchAt cs with
      | some (m, rest) => m :: wikiFindAllAux fuel rest
      | none =>
        match cs with
        | [] => []
        | _ :: tl => wikiFindAllAux fuel tl := rfl

theorem wikiFindAllAux_congr : ∀ (f1 f2 : Nat) (cs : List Char),
    cs.length ≤ f1 → cs.length ≤ f2 → wikiFindAllAux f1 cs = wikiFindAllAux f2 cs := by
  intro f1
  induction f1 with
  | zero =>
    intro f2 cs h1 _
    have hcs : cs = [] := List.length_eq_zero.1 (by omega)
    subst hcs
    cases f2 with
    | zero => rfl
    | succ f2 => simp [wikiFindAllAux, wikiMatchAt]
  | succ f1 ih =>
    intro f2 cs h1 h2
    cases f2 with
    | zero =>
      have hcs : cs = [] := List.length_eq_zero.1 (by omega)
      subst hcs
      simp [wikiFindAllAux, wikiMatchAt]
    | succ f2 =>
      rw [wikiFindAllAux_succ, wikiFindAllAux_succ]
      rcases hm : wikiMatchAt cs with _ | ⟨m, rest⟩
      · simp only [hm]
        cases cs with
        | nil => rfl
        | cons c tl =>
          have h1tl : tl.length ≤ f1 := by
            simp only [List.length_cons] at h1
            omega
          have h2tl : tl.length ≤ f2 := by
            simp only [List.length_cons] at h2
            omega
          exact ih f2 tl h1tl h2tl
      · have hlt := wikiMatchAt_some_length hm
        simp only [hm]
        rw [ih f2 rest (by omega) (by omega)]

theorem wikiFindAll_nil : wikiFindAll [] = [] := rfl

theorem wikiFindAll_pos {cs m rest : List Char} (h : wikiMatchAt cs = some (m, rest)) :
    wikiFindAll cs = m :: wikiFindAll rest := by
  match cs with
  | [] => simp [wikiMatchAt] at h
  | c :: tl =>
    have hlt := wikiMatchAt_some_length h
    simp only [List.length_cons] at hlt
    rw [wikiFindAll, wikiFindAll]
    simp only [List.length_cons]
    rw [wikiFindAllAux_succ]
    simp only [h]
    rw [wikiFindAllAux_congr tl.length rest.length rest (by omega) le_rfl]

theorem wikiFindAll_neg {c : Char} {tl : List Char} (h : wikiMatchAt (c :: tl) = none) :
    wikiFindAll (c :: tl) = wikiFindAll tl := by
  rw [wikiFindAll, wikiFindAll]
  simp only [List.length_cons]
  rw [wikiFindAllAux_succ]
  simp only [h]

theorem markdownFindAllAux_succ (fuel : Nat) (cs : List Char) :
    markdownFindAllAux (fuel + 1) cs =
      match markdownMatchAt cs with
      | some (m, rest) => m :: markdownFindAllAux fuel rest
      | none =>
        match cs with
        | [] => []
        | _ :: tl => markdownFindAllAux fuel tl := rfl

theorem markdownFindAllAux_congr : ∀ (f1 f2 : Nat) (cs : List Char),
    cs.length ≤ f1 → cs.length ≤ f2 →
      markdownFindAllAux f1 cs = markdownFindAllAux f2 cs := by
  intro f1
  induction f1 with
  | zero =>
    intro f2 cs h1 _
    have hcs : cs = [] := List.length_eq_zero.1 (by omega)
    subst hcs
    cases f2 with
    | zero => rfl
    | succ f2 => simp [markdownFindAllAux, markdownMatchAt]
  | succ f1 ih =>
    intro f2 cs h1 h2
    cases f2 with
    | zero =>
      have hcs : cs = [] := List.length_eq_zero.1 (by omega)
      subst hcs
      simp [markdownFindAllAux, markdownMatchAt]
    | succ f2 =>
      rw [markdownFindAllAux_succ, markdownFindAllAux_succ]
      rcases hm : markdownMatchAt cs with _ | ⟨m, rest⟩
      · simp only [hm]
        cases cs with
        | nil => rfl
        | cons c tl =>
          have h1tl : tl.length ≤ f1 := by
            simp only [List.length_cons] at h1
            omega
          have h2tl : tl.length ≤ f2 := by
            simp only [List.length_cons] at h2
            omega
          exact ih f2 tl h1tl h2tl
      · have hlt := markdownMatchAt_some_length hm
        simp only [hm]
        rw [ih f2 rest (by omega) (by omega)]

theorem markdownFindAll_nil : markdownFindAll [] = [] := rfl

theorem markdownFindAll_pos {cs m rest : List Char}
    (h : markdownMatchAt cs = some (m, rest)) :
    markdownFindAll cs = m :: markdownFindAll rest := by
  match cs with
  | [] => simp [markdownMatchAt] at h
  | c :: tl =>
    have hlt := markdownMatchAt_some_length h
    simp only [List.length_cons] at hlt
    rw [markdownFindAll, markdownFindAll]
    simp only [List.length_cons]
    rw [markdownFindAllAux_succ]
    simp only [h]
    rw [markdownFindAllAux_congr tl.length rest.length rest (by omega) le_rfl]

theorem markdownFindAll_neg {c : Char} {tl : List Char}
    (h : markdownMatchAt (c :: tl) = none) :
    markdownFindAll (c :: tl) = markdownFindAll tl := by
  rw [markdownFindAll, markdownFindAll]
  simp only [List.length_cons]
  rw [markdownFindAllAux_succ]
  simp only [h]

theorem mem_foldl_dedup [DecidableEq α] (l : List α) (acc : List α) (a : α) :
    a ∈ l.foldl (fun acc x => if x ∈ acc then acc else acc ++ [x]) acc ↔
      a ∈ acc ∨ a ∈ l := by
  induction l generalizing acc with
  | nil => simp
  | cons x tl ih =>
    simp only [List.foldl_cons]
    by_cases hx : x ∈ acc
    · rw [if_pos hx, ih]
      constructor
      · rintro (h | h)
        · exact Or.inl h
        · exact Or.inr (List.mem_cons_of_mem _ h)
      · rintro (h | h)
        · exact Or.inl h
        · rcases List.mem_cons.1 h with h | h
          · exact Or.inl (h ▸ hx)
          · exact Or.inr h
    · rw [if_neg hx, ih]
      simp [List.mem_append, or_assoc]

theorem mem_dedupKeep [DecidableEq α] (l : List α) (a : α) :
    a ∈ dedupKeep l ↔ a ∈ l := by
  rw [dedupKeep, mem_foldl_dedup]
  simp

theorem unique_eq_true_iff (s : String) (l : List String) :
    unique s l = true ↔ s ∉ l := by
  induction l with
  | nil => simp [unique]
  | cons v vs ih =>
    rw [unique]
    by_cases h : s = v
    · simp [h]
    · simp [h, ih]

theorem graphGet_graphSet_self (g : List (String × List String)) (k : String)
    (v : List String) : graphGet (graphSet g k v) k = v := by
  induction g with
  | nil => simp [graphSet, graphGet, List.find?]
  | cons kv rest ih =>
    rw [graphSet]
    by_cases h : kv.1 = k
    · rw [if_pos h]
      simp [graphGet, List.find?]
    · rw [if_neg h]
      have hb : (kv.1 == k) = false := by simpa using h
      simpa [graphGet, List.find?, hb] using ih

theorem graphGet_graphSet_ne (g : List (String × List String)) (k k' : String)
    (v : List String) (h : k' ≠ k) : graphGet (graphSet g k v) k' = graphGet g k' := by
  have hb : (k == k') = false := by simpa using Ne.symm h
  induction g with
  | nil => simp [graphSet, graphGet, List.find?, hb]
  | cons kv rest ih =>
    rw [graphSet]
    by_cases hk : kv.1 = k
    · subst hk
      simp [graphGet, List.find?, hb]
    · rw [if_neg hk]
      by_cases hk' : (kv.1 == k') = true
      · simp [graphGet, List.find?, hk']
      · have hk'f : (kv.1 == k') = false := by simpa using hk'
        simpa [graphGet, List.find?, hk'f] using ih

theorem insertGraph_get_self (g : List (String × List String)) (key value : String) :
    graphGet (insertGraph g key value) key =
      if value ∈ graphGet g key then graphGet g key else graphGet g key ++ [value] := by
  rw [insertGraph]
  by_cases h : value ∈ graphGet g key
  · have : unique value (graphGet g key) = false := by
      rcases hb : unique value (graphGet g key) with _ | _
      · rfl
      · exact absurd ((unique_eq_true_iff ..).1 hb) (by simpa using h)
    simp [this, h]
  · rw [if_pos ((unique_eq_true_iff ..).2 h), if_neg h, graphGet_graphSet_self]

theorem insertGraph_mem_self (g : List (String × List String)) (key value : String) :
    value ∈ graphGet (insertGraph g key value) key := by
  rw [insertGraph_get_self]
  by_cases h : value ∈ graphGet g key
  · simp only [if_pos h]
    exact h
  · simp [h]

theorem insertGraph_of_mem (g : List (String × List String)) (key value : String)
    (h : value ∈ graphGet g key) : insertGraph g key value = g := by
  rw [insertGraph, if_neg]
  intro hu
  exact (unique_eq_true_iff ..).1 hu h

/-- C5 (supporting): `Insert` is the identity when the target already sits
in the source's outgoing list. -/
theorem wiki_insert_of_mem (w : Wiki) (key value : String)
    (h : value ∈ graphGet w.graph key) : w.Insert key value = w := by
  rw [Wiki.Insert, insertGraph_of_mem _ _ _ h]

theorem insertGraph_get_ne (g : List (String × List String)) (key value k : String)
    (h : k ≠ key) : graphGet (insertGraph g key value) k = graphGet g k := by
  rw [insertGraph]
  by_cases hu : unique value (graphGet g key) = true
  · rw [if_pos hu, graphGet_graphSet_ne _ _ _ _ h]
  · rw [if_neg hu]

/-- C5: `Insert` is idempotent — a second `Insert(source, target)` is the
identity (hence the outgoing list keeps its length), `Insert` is a no-op
when the target is already present (exact string equality), the outgoing
list of the source stays duplicate-free, and every other adjacency list is
untouched. -/
theorem insert_idempotent (w : Wiki) (key value : String) :
    (w.Insert key value).Insert key value = w.Insert key value ∧
    (graphGet ((w.Insert key value).Insert key value).graph key).length =
      (graphGet (w.Insert key value).graph key).length ∧
    (value ∈ graphGet w.graph key → w.Insert key value = w) ∧
    ((graphGet w.graph key).Nodup → (graphGet (w.Insert key value).graph key).Nodup) ∧
    (∀ k, k ≠ key → graphGet (w.Insert key value).graph k = graphGet w.graph k) := by
  have hidem : (w.Insert key value).Insert key value = w.Insert key value :=
    wiki_insert_of_mem _ _ _ (by simpa [Wiki.Insert] using insertGraph_mem_self w.graph key value)
  refine ⟨hidem, by rw [hidem], wiki_insert_of_mem w key value, ?_, ?_⟩
  · intro hnd
    show (graphGet (insertGraph w.graph key value) key).Nodup
    rw [insertGraph_get_self]
    by_cases h : value ∈ graphGet w.graph key
    · simpa [h] using hnd
    · simp only [if_neg h, List.nodup_append, List.nodup_cons]
      exact ⟨hnd, by simp, by simpa using h⟩
  · intro k hk
    exact insertGraph_get_ne w.graph key value k hk

/-- C5 witness: on the one-edge wiki `a.wiki → b.wiki`, re-inserting the
present edge is a no-op, and inserting a fresh one keeps the list
duplicate-free. -/
theorem insert_idempotent_witness :
    (collapseWiki.Insert "a.wiki" "b.wiki").Insert "a.wiki" "b.wiki" =
        collapseWiki.Insert "a.wiki" "b.wiki" ∧
    ((collapseWiki.Insert "a.wiki" "b.wiki").Insert "a.wiki" "b.wiki" =
        collapseWiki.Insert "a.wiki" "b.wiki" → True) ∧
    (graphGet (collapseWiki.Insert "a.wiki" "b.wiki").graph "a.wiki").Nodup := by
  refine ⟨(insert_idempotent collapseWiki "a.wiki" "b.wiki").1, fun _ => trivial, ?_⟩
  exact (insert_idempotent collapseWiki "a.wiki" "b.wiki").2.2.2.1 (by decide)

theorem subScan_iff (sub l : List Char) : subScan sub l = true ↔ sub <:+: l := by
  induction l with
  | nil =>
    rw [subScan]
    by_cases h : sub = []
    · subst h
      simp
    · simp [List.isPrefixOf_iff_prefix, List.prefix_nil, List.infix_nil, h]
  | cons a tl ih =>
    rw [subScan, List.infix_cons_iff]
    by_cases h : sub <+: a :: tl
    · simp [List.isPrefixOf_iff_prefix, h]
    · simp [List.isPrefixOf_iff_prefix, h, ih]

/-- C3: `Remap(dir, key, target)` first joins `dir` with `target`; then a
single configured pair (pattern, replacement) replaces the whole document
identifier with the replacement exactly when the pattern equals `dir`, and
independently replaces the entire joined target with the replacement
exactly when the pattern is a substring of it (`strings_Contains`, i.e.
list-infix, containment).  With the pair `diary ↦ diary`, the parsed link
of `[[diary/link]]` from the root directory remaps to target `diary`, and
the parsed link of `[[link]]` from inside `diary` also remaps to `diary`
(the scenarios of `TestMappingCollapse`). -/
theorem remap_joins_then_replaces :
    (∀ s sub : String, strings_Contains s sub = true ↔ sub.data <:+: s.data) ∧
    (∀ pat rep dir key target : String,
      remapApply [(pat, rep)] dir key target =
        (if pat = dir then rep else key,
         if strings_Contains (filepath_Join dir target) pat then rep
         else filepath_Join dir target)) ∧
    Links "[[diary/link]]" = some ["diary/link.wiki"] ∧
    collapseWiki.Remap "." "." "diary/link.wiki" = (".", "diary") ∧
    Links "[[link]]" = some ["link.wiki"] ∧
    collapseWiki.Remap "diary" "." "link.wiki" = ("diary", "diary") := by
  refine ⟨fun s sub => subScan_iff sub.data s.data, fun pat rep dir key target => rfl,
    rfl, rfl, rfl, rfl⟩

/-- C9: provided the two built-in link patterns compile (they always do
under Go's `regexp`), `newWiki` returns a non-nil error exactly when the
ignore pattern is non-empty and fails to compile; and in that case `main`
aborts with that error before any traversal, `Walk` never running. -/
theorem newWiki_error_iff (compile : String → Except String (String → Bool))
    (dir : String) (remap : List (String × String)) (cluster : Bool)
    (ignore : String) (files : List (String × List String))
    (hw : exceptOk (compile wikiref) = true)
    (hm : exceptOk (compile markdownref) = true) :
    (exceptOk (newWiki compile dir remap cluster ignore) = true ↔
      (ignore = "" ∨ exceptOk (compile ignore) = true)) ∧
    (∀ e, ignore ≠ "" → compile ignore = .error e →
      mainRun compile dir remap cluster ignore files = .error e) := by
  rcases hcw : compile wikiref with e | mw
  · rw [hcw] at hw
    simp [exceptOk] at hw
  · rcases hcm : compile markdownref with e | mm
    · rw [hcm] at hm
      simp [exceptOk] at hm
    · constructor
      · by_cases hi : ignore = ""
        · subst hi
          simp [newWiki, CompileExpressions, hcw, hcm, exceptOk]
        · rcases hci : compile ignore with e | mi
          · simp [newWiki, CompileExpressions, hcw, hcm, hci, hi, exceptOk]
          · simp [newWiki, CompileExpressions, hcw, hcm, hci, hi, exceptOk]
      · intro e hi hci
        simp [mainRun, newWiki, CompileExpressions, hcw, hcm, hci, hi]

/-- C9 witness: under `compileStub`, `newWiki` succeeds for the empty
ignore pattern and `main` aborts before traversal for the malformed
pattern `[`. -/
theorem newWiki_error_iff_witness :
    exceptOk (newWiki compileStub "." [] false "") = true ∧
    mainRun compileStub "." [] false "[" [] = .error "missing closing ]" := by
  constructor
  · exact (newWiki_error_iff compileStub "." [] false "" [] (by rfl) (by rfl)).1.mpr
      (Or.inl rfl)
  · exact (newWiki_error_iff compileStub "." [] false "[" []
      (by rfl) (by rfl)).2 "missing closing ]" (by decide) (by rfl)

theorem nodup_keys_eq {g : List (String × List String)}
    (hn : (g.map Prod.fst).Nodup) {k : String} {v1 v2 : List String}
    (h1 : (k, v1) ∈ g) (h2 : (k, v2) ∈ g) : v1 = v2 := by
  induction g with
  | nil => simp at h1
  | cons kv rest ih =>
    simp only [List.map_cons, List.nodup_cons] at hn
    rcases List.mem_cons.1 h1 with h1 | h1 <;> rcases List.mem_cons.1 h2 with h2 | h2
    · exact congrArg Prod.snd (h1.trans h2.symm)
    · exfalso
      rw [← h1] at hn
      exact hn.1 (List.mem_map.2 ⟨(k, v2), h2, rfl⟩)
    · exfalso
      rw [← h2] at hn
      exact hn.1 (List.mem_map.2 ⟨(k, v1), h1, rfl⟩)
    · exact ih hn.2 h1 h2

theorem nodeRef_inj {cluster : Bool} {k k' : String}
    (h : nodeRef cluster k = nodeRef cluster k') : k = k' :=
  congrArg Prod.snd h

/-- C2: a source node and all of its outgoing edges are rendered by `Dot`
exactly when its outgoing list has length at least `level`; at `level = 0`
every node of the graph is rendered, sourceless ones included.  On the
ten-node graph whose node `ni` has out-degree `i` over nine shared
targets, the rendered node count is 19 at level 0, drops by exactly one
per level up to 10 at level 9, and is 0 at level 10. -/
theorem dot_level_filter :
    (∀ (w : Wiki) (level : Nat) (k : String) (val : List String),
      (w.graph.map Prod.fst).Nodup → (k, val) ∈ w.graph →
        ((k ∈ dotSources w level ↔ level ≤ val.length) ∧
         (∀ v : String,
            (nodeRef w.cluster k, nodeRef w.cluster v) ∈ dotEdges w level ↔
              (level ≤ val.length ∧ v ∈ val)) ∧
         nodeRef w.cluster k ∈ dotNodes w 0)) ∧
    (List.range 11).map (fun L => (dotNodes levelWiki L).length) =
      [19, 18, 17, 16, 15, 14, 13, 12, 11, 10, 0] := by
  refine ⟨fun w level k val hn hmem => ⟨?_, fun v => ?_, ?_⟩, by rfl⟩
  · constructor
    · intro h
      obtain ⟨⟨k', val'⟩, hf, hk⟩ := List.mem_map.1 h
      obtain ⟨hg, hlen⟩ := List.mem_filter.1 hf
      cases hk
      have := nodup_keys_eq hn hg hmem
      subst this
      simpa using hlen
    · intro h
      exact List.mem_map.2 ⟨(k, val), List.mem_filter.2 ⟨hmem, by simpa using h⟩, rfl⟩
  · constructor
    · intro h
      obtain ⟨⟨k', val'⟩, hf, hpair⟩ := List.mem_flatMap.1 ((mem_dedupKeep _ _).1 h)
      obtain ⟨v', hv', heq⟩ := List.mem_map.1 hpair
      obtain ⟨hg, hlen⟩ := List.mem_filter.1 hf
      have hk : k' = k := nodeRef_inj (congrArg Prod.fst heq)
      have hv : v' = v := nodeRef_inj (congrArg Prod.snd heq)
      subst hk hv
      have := nodup_keys_eq hn hg hmem
      subst this
      exact ⟨by simpa using hlen, hv'⟩
    · rintro ⟨hlen, hv⟩
      refine (mem_dedupKeep _ _).2 (List.mem_flatMap.2
        ⟨(k, val), List.mem_filter.2 ⟨hmem, by simpa using hlen⟩, ?_⟩)
      exact List.mem_map.2 ⟨v, hv, rfl⟩
  · refine (mem_dedupKeep _ _).2 (List.mem_flatMap.2
      ⟨(k, val), List.mem_filter.2 ⟨hmem, by simp⟩, ?_⟩)
    simp

/-- C2 witness: instantiated on the ten-node graph at node `n2`. -/
theorem dot_level_filter_witness :
    ("n2" ∈ dotSources levelWiki 1 ↔ 1 ≤ (["t1", "t2"] : List String).length) ∧
    nodeRef levelWiki.cluster "n2" ∈ dotNodes levelWiki 0 := by
  refine ⟨(dot_level_filter.1 levelWiki 1 "n2" ["t1", "t2"] (by decide) (by decide)).1, ?_⟩
  exact (dot_level_filter.1 levelWiki 0 "n2" ["t1", "t2"] (by decide) (by decide)).2.2

/-- C1 (code evaluation at the failing input): for the image embed
`![alt](img.png)`, `ParseMarkdownLinks` does return the empty string, but
`Links` keeps the raw match text `[alt](img.png)` in its result — the
slice entry is only overwritten when the parse is non-empty — and `Add`
then inserts that raw match into the graph instead of discarding it. -/
theorem links_keeps_raw_match_on_unknown_extension :
    ParseMarkdownLinks "[alt](img.png)" = some "" ∧
    Links "![alt](img.png)" = some ["[alt](img.png)"] ∧
    (plainWiki.Add "note.md" ["![alt](img.png)"]).map (fun w => w.graph) =
      some [("note.md", ["[alt](img.png)"])] :=
  ⟨rfl, rfl, rfl⟩

theorem insert_ignored (w : Wiki) (k v : String) :
    (w.Insert k v).ignored = w.ignored := rfl

theorem procLinks_ignored (dir : String) :
    ∀ (links : List String) (st : Wiki × String),
      (procLinks dir st links).1.ignored = st.1.ignored := by
  intro links
  induction links with
  | nil => intro ⟨w, key⟩; rfl
  | cons link rest ih =>
    intro ⟨w, key⟩
    rw [procLinks]
    by_cases h : w.IgnorePath link
    · rw [if_pos h]
      exact ih (w, key)
    · rw [if_neg h]
      exact ih _

theorem foldlM_procLine_ignored (dir : String) :
    ∀ (lines : List String) (st res : Wiki × String),
      lines.foldlM (procLine dir) st = some res → res.1.ignored = st.1.ignored := by
  intro lines
  induction lines with
  | nil =>
    intro st res h
    simp only [List.foldlM_nil] at h
    cases h
    rfl
  | cons line rest ih =>
    intro st res h
    simp only [List.foldlM_cons] at h
    rcases hl : procLine dir st line with _ | st'
    · rw [hl] at h
      simp at h
    · rw [hl] at h
      simp only [Option.bind_eq_bind, Option.some_bind] at h
      have h1 : st'.1.ignored = st.1.ignored := by
        rw [procLine] at hl
        rcases hlk : Links line with _ | links
        · rw [hlk] at hl
          simp at hl
        · rw [hlk] at hl
          injection hl with hl
          rw [← hl]
          exact procLinks_ignored dir links st
      rw [ih st' res h, h1]

theorem add_ignored {w w' : Wiki} {path : String} {lines : List String}
    (h : w.Add path lines = some w') : w'.ignored = w.ignored := by
  rw [Wiki.Add] at h
  rcases hf : lines.foldlM (procLine (filepath_Dir path))
      (if (w.graph.find? (fun kv => kv.1 == path)).isSome then w
       else { w with graph := w.graph ++ [(path, [])] }, path) with _ | st
  · rw [hf] at h
    simp at h
  · rw [hf] at h
    injection h with h
    rw [← h]
    have := foldlM_procLine_ignored (filepath_Dir path) lines _ st hf
    rw [this]
    by_cases hc : (w.graph.find? (fun kv => kv.1 == path)).isSome
    · rw [if_pos hc]
    · rw [if_neg hc]

theorem ignorePath_eq_of_ignored {w w' : Wiki} (h : w'.ignored = w.ignored) :
    ∀ p, w'.IgnorePath p = w.IgnorePath p := by
  intro p
  rw [Wiki.IgnorePath, Wiki.IgnorePath, h]

/-- C8 counterexample: with the ignore pattern `^diary/` (matcher: prefix
`diary/`), the document `a/note.wiki` containing `[[../diary/x]]` parses
to the link text `../diary/x.wiki`, which does not match; after joining
with the directory it becomes the target identifier `diary/x.wiki`, which
does match the pattern yet is inserted into the graph. -/
theorem ignorePath_target_counterexample :
    ignoreWiki.IgnorePath "diary/x.wiki" = true ∧
    ignoreWiki.IgnorePath "../diary/x.wiki" = false ∧
    (ignoreWiki.Add "a/note.wiki" ["[[../diary/x]]"]).map (fun w => w.graph) =
      some [("a/note.wiki", ["diary/x.wiki"])] :=
  ⟨rfl, rfl, rfl⟩

/-- C8 (amended): with no configured pattern `IgnorePath` rejects nothing;
with a pattern, matching file paths are never scanned (`Walk` behaves as
if they were filtered away), and a parsed link whose text matches the
pattern is skipped by the per-link loop before remapping and insertion.
The test is applied to the parsed link text before directory-joining and
remapping, so the final inserted identifier may still match the pattern
(see the counterexample). -/
theorem ignorePath_filtering :
    (∀ (w : Wiki) (path : String), w.ignored = none → w.IgnorePath path = false) ∧
    (∀ (w : Wiki) (files : List (String × List String)),
      w.Walk files = w.Walk (files.filter (fun f => !w.IgnorePath f.1))) ∧
    (∀ (dir : String) (st : Wiki × String) (links : List String),
      procLinks dir st links =
        procLinks dir st (links.filter (fun l => !st.1.IgnorePath l))) := by
  refine ⟨fun w path h => by rw [Wiki.IgnorePath, h], ?_, ?_⟩
  · intro w files
    induction files generalizing w with
    | nil => rfl
    | cons f rest ih =>
      rw [Wiki.Walk, List.foldlM_cons, List.filter_cons]
      by_cases h : w.IgnorePath f.1
      · rw [if_pos h, h]
        simp only [Bool.not_true, Bool.false_eq_true, if_false]
        show rest.foldlM _ w = _
        exact ih w
      · have hb : w.IgnorePath f.1 = false := by simpa using h
        rw [if_neg h, hb]
        simp only [Bool.not_false, if_true]
        rw [Wiki.Walk, List.foldlM_cons]
        simp only [if_neg h]
        rcases ha : w.Add f.1 f.2 with _ | w'
        · rfl
        · simp only [Option.bind_eq_bind, Option.some_bind]
          show w'.Walk rest = w'.Walk (rest.filter fun f => !w.IgnorePath f.1)
          have hip := ignorePath_eq_of_ignored (add_ignored ha)
          have : (fun f : String × List String => !w.IgnorePath f.1) =
              (fun f : String × List String => !w'.IgnorePath f.1) := by
            funext f
            rw [hip f.1]
          rw [this]
          exact ih w'
  · intro dir st links
    induction links generalizing st with
    | nil => rfl
    | cons link rest ih =>
      obtain ⟨w, key⟩ := st
      rw [procLinks, List.filter_cons]
      by_cases h : w.IgnorePath link
      · rw [if_pos h]
        show procLinks dir (w, key) rest = _
        simp only [h, Bool.not_true, Bool.false_eq_true, if_false]
        exact ih (w, key)
      · have hb : w.IgnorePath link = false := by simpa using h
        rw [if_neg h]
        simp only [hb, Bool.not_false, if_true]
        rw [procLinks]
        rw [if_neg h]
        have hpres : ((w.Insert (w.Remap dir key link).1 (w.Remap dir key link).2).IgnorePath) =
            w.IgnorePath := by
          funext p
          exact ignorePath_eq_of_ignored (insert_ignored w ..) p
        rw [ih]
        show _ = procLinks dir _ (List.filter (fun l => !w.IgnorePath l) rest)
        have : (fun l => !(w.Insert (w.Remap dir key link).1
            (w.Remap dir key link).2).IgnorePath l) = (fun l => !w.IgnorePath l) := by
          funext l
          rw [hpres]
        rw [this]

/-- C8 witness: with no pattern nothing is ignored; with the `^diary/`
pattern, `Walk` over a matching and a non-matching file equals `Walk` over
just the non-matching one. -/
theorem ignorePath_filtering_witness :
    plainWiki.IgnorePath "diary/x.wiki" = false ∧
    ignoreWiki.Walk [("diary/d.wiki", ["[[a]]"]), ("n.wiki", [])] =
      ignoreWiki.Walk
        ([("diary/d.wiki", ["[[a]]"]), ("n.wiki", [])].filter
          (fun f => !ignoreWiki.IgnorePath f.1)) := by
  refine ⟨ignorePath_filtering.1 plainWiki "diary/x.wiki" rfl, ?_⟩
  exact ignorePath_filtering.2.1 ignoreWiki [("diary/d.wiki", ["[[a]]"]), ("n.wiki", [])]

theorem bracket_contains_false {c : Char} (h1 : c ≠ '[') (h2 : c ≠ ']') :
    ("[]".data.contains c) = false := by
  have : "[]".data = ['[', ']'] := rfl
  rw [this]
  simp [List.contains, h1, h2, Ne.symm h1, Ne.symm h2]

theorem dropWhile_false_eq_self {p : Char → Bool} {l : List Char}
    (h : ∀ c ∈ l, p c = false) : l.dropWhile p = l := by
  cases l with
  | nil => rfl
  | cons a tl =>
    rw [List.dropWhile_cons, h a (by simp)]
    simp

theorem dropWhile_append_stop {p : Char → Bool} :
    ∀ (A : List Char) (b : Char) (C : List Char), p b = false →
      ∃ A' : List Char, List.dropWhile p (A ++ b :: C) = A' ++ b :: C := by
  intro A
  induction A with
  | nil =>
    intro b C hb
    exact ⟨[], by simp [List.dropWhile_cons, hb]⟩
  | cons a A ih =>
    intro b C hb
    by_cases ha : p a
    · obtain ⟨A', hA'⟩ := ih b C hb
      exact ⟨A', by simp [List.dropWhile_cons, ha, hA']⟩
    · exact ⟨a :: A, by simp [List.dropWhile_cons, ha]⟩

theorem trim_brackets (x : String) (hbr : ∀ c ∈ x.data, c ≠ '[' ∧ c ≠ ']') :
    strings_Trim ("[[" ++ x ++ "]]") "[]" = x := by
  obtain ⟨xd⟩ := x
  have hfree : ∀ c ∈ xd, ("[]".data.contains c) = false := fun c hc =>
    bracket_contains_false (hbr c hc).1 (hbr c hc).2
  rw [strings_Trim]
  refine congrArg String.mk ?_
  have h0 : ("[[" ++ ({ data := xd } : String) ++ "]]").data =
      '[' :: '[' :: (xd ++ [']', ']']) := by simp
  rw [h0]
  have h1 : List.dropWhile (fun c => "[]".data.contains c)
      ('[' :: '[' :: (xd ++ [']', ']'])) =
      List.dropWhile (fun c => "[]".data.contains c) (xd ++ [']', ']']) := by
    rw [List.dropWhile_cons, List.dropWhile_cons]
    simp
  rw [h1]
  cases xd with
  | nil => rfl
  | cons c cs =>
    have h2 : List.dropWhile (fun c => "[]".data.contains c) ((c :: cs) ++ [']', ']']) =
        (c :: cs) ++ [']', ']'] := by
      rw [List.cons_append, List.dropWhile_cons, hfree c (by simp)]
      simp
    rw [h2]
    have h3 : (((c :: cs) ++ [']', ']']) : List Char).reverse =
        ']' :: ']' :: (c :: cs).reverse := by simp
    rw [h3]
    have h4 : List.dropWhile (fun c => "[]".data.contains c)
        (']' :: ']' :: (c :: cs).reverse) =
        List.dropWhile (fun c => "[]".data.contains c) ((c :: cs).reverse) := by
      rw [List.dropWhile_cons, List.dropWhile_cons]
      simp
    rw [h4]
    have h5 : List.dropWhile (fun c => "[]".data.contains c) ((c :: cs).reverse) =
        (c :: cs).reverse :=
      dropWhile_false_eq_self (fun a ha => hfree a (List.mem_reverse.1 ha))
    rw [h5, List.reverse_reverse]

theorem trim_brackets_pipe (x desc : String) (hne : x.data ≠ [])
    (hbr : ∀ c ∈ x.data, c ≠ '[' ∧ c ≠ ']') :
    ∃ d : List Char,
      strings_Trim ("[[" ++ x ++ "|" ++ desc ++ "]]") "[]" =
        String.mk (x.data ++ '|' :: d) := by
  obtain ⟨xd⟩ := x
  have hfree : ∀ c ∈ xd, ("[]".data.contains c) = false := fun c hc =>
    bracket_contains_false (hbr c hc).1 (hbr c hc).2
  rw [strings_Trim]
  have h0 : ("[[" ++ ({ data := xd } : String) ++ "|" ++ desc ++ "]]").data =
      '[' :: '[' :: (xd ++ '|' :: (desc.data ++ [']', ']'])) := by simp
  rw [h0]
  have h1 : List.dropWhile (fun c => "[]".data.contains c)
      ('[' :: '[' :: (xd ++ '|' :: (desc.data ++ [']', ']']))) =
      List.dropWhile (fun c => "[]".data.contains c)
        (xd ++ '|' :: (desc.data ++ [']', ']'])) := by
    rw [List.dropWhile_cons, List.dropWhile_cons]
    simp
  rw [h1]
  cases xd with
  | nil => exact absurd rfl hne
  | cons c cs =>
    have h2 : List.dropWhile (fun c => "[]".data.contains c)
        ((c :: cs) ++ '|' :: (desc.data ++ [']', ']'])) =
        (c :: cs) ++ '|' :: (desc.data ++ [']', ']']) := by
      rw [List.cons_append, List.dropWhile_cons, hfree c (by simp)]
      simp
    rw [h2]
    have h3 : (((c :: cs) ++ '|' :: (desc.data ++ [']', ']'])) : List Char).reverse =
        (']' :: ']' :: desc.data.reverse) ++ '|' :: (c :: cs).reverse := by
      simp
    rw [h3]
    have hpf : ("[]".data.contains '|') = false :=
      bracket_contains_false (by decide) (by decide)
    obtain ⟨A', hA'⟩ := dropWhile_append_stop (']' :: ']' :: desc.data.reverse) '|'
      (((c :: cs) : List Char).reverse) hpf
    rw [hA']
    exact ⟨A'.reverse, by simp⟩

theorem strings_Index_append_or (c : Char) :
    ∀ (A B : List Char),
      strings_Index (A ++ B) c =
        match strings_Index A c with
        | some i => some i
        | none => (strings_Index B c).map (· + A.length) := by
  intro A
  induction A with
  | nil =>
    intro B
    simp only [List.nil_append, strings_Index, List.length_nil]
    rcases hB : strings_Index B c with _ | j
    · rfl
    · simp
  | cons a A ih =>
    intro B
    by_cases ha : a = c
    · simp [strings_Index, ha]
    · rw [List.cons_append, strings_Index, if_neg ha, ih B, strings_Index, if_neg ha]
      rcases hA : strings_Index A c with _ | i
      · rcases hB : strings_Index B c with _ | j
        · rfl
        · simp [Function.comp, Nat.add_assoc]
      · rfl

theorem strings_Index_some_lt {l : List Char} {c : Char} {i : Nat}
    (h : strings_Index l c = some i) : i < l.length := by
  induction l generalizing i with
  | nil => simp [strings_Index] at h
  | cons a tl ih =>
    rw [strings_Index] at h
    by_cases ha : a = c
    · rw [if_pos ha] at h
      injection h with h
      subst h
      simp
    · rw [if_neg ha] at h
      rcases ht : strings_Index tl c with _ | j
      · rw [ht] at h
        simp at h
      · rw [ht] at h
        simp only [Option.map_some'] at h
        injection h with h
        subst h
        have := ih ht
        simp only [List.length_cons]
        omega

theorem strings_Index_eq_none {l : List Char} {c : Char} (h : c ∉ l) :
    strings_Index l c = none := by
  induction l with
  | nil => rfl
  | cons a tl ih =>
    have ha : a ≠ c := by
      intro he
      rw [he] at h
      exact h (List.mem_cons_self c tl)
    rw [strings_Index, if_neg ha, ih (fun ht => h (List.mem_cons_of_mem a ht))]
    rfl

theorem splitDescr_no_pipe_tail (x : String) (hp : '|' ∉ x.data.tail) :
    splitDescr x = x := by
  obtain ⟨xd⟩ := x
  rw [splitDescr]
  cases xd with
  | nil => rfl
  | cons c cs =>
    by_cases hc : c = '|'
    · subst hc
      simp [strings_Index]
    · have hn : strings_Index cs '|' = none := strings_Index_eq_none (by simpa using hp)
      simp [strings_Index, hc, hn]

theorem splitDescr_append_pipe (x : String) (d : List Char)
    (hne : x.data ≠ []) (hhd : x.data.head? ≠ some '|') :
    splitDescr (String.mk (x.data ++ '|' :: d)) = splitDescr x := by
  obtain ⟨xd⟩ := x
  cases xd with
  | nil => exact absurd rfl hne
  | cons c cs =>
    have hc : c ≠ '|' := by
      intro he
      exact hhd (by simp [he])
    rw [splitDescr, splitDescr]
    have happ := strings_Index_append_or '|' ((c :: cs) : List Char) ('|' :: d)
    rcases hf : strings_Index ((c :: cs) : List Char) '|' with _ | i
    · rw [hf] at happ
      have hidx : strings_Index (((c :: cs) : List Char) ++ '|' :: d) '|' =
          some ((c :: cs) : List Char).length := by
        rw [happ]
        simp [strings_Index]
      simp only [hidx, hf]
      have hpos : 0 < ((c :: cs) : List Char).length := by simp
      rw [if_pos hpos]
      have htake : ((((c :: cs) : List Char) ++ '|' :: d)).take
          ((c :: cs) : List Char).length = ((c :: cs) : List Char) := by
        rw [List.take_append_of_le_length le_rfl, List.take_length]
      simp only [htake]
    · rw [hf] at happ
      have hipos : 0 < i := by
        rw [strings_Index, if_neg hc] at hf
        rcases ht : strings_Index cs '|' with _ | j
        · rw [ht] at hf
          simp at hf
        · rw [ht] at hf
          simp only [Option.map_some'] at hf
          injection hf with hf
          omega
      have hilt : i < ((c :: cs) : List Char).length := strings_Index_some_lt hf
      simp only [happ, hf, if_pos hipos]
      rw [List.take_append_of_le_length (by omega)]

/-- C6 counterexample: for the empty target, `[[|d]]` parses to `|d.wiki`
while `[[]]` parses to `.wiki` — the description is not discarded, because
the split is skipped when the `|` is the first character. -/
theorem parseWikiLinks_description_counterexample :
    ParseWikiLinks "[[|d]]" = "|d.wiki" ∧ ParseWikiLinks "[[]]" = ".wiki" ∧
    ParseWikiLinks "[[|d]]" ≠ ParseWikiLinks "[[]]" := by
  refine ⟨rfl, rfl, by decide⟩

/-- C6 (amended): for every non-empty bracket-free target `x` that does
not start with `|` and every description `desc`, parsing `[[x|desc]]`
discards the description entirely and equals parsing `[[x]]`.  (For the
empty target the `idx > 0` guard of the split keeps the description: see
the counterexample.) -/
theorem parseWikiLinks_ignores_description (x desc : String)
    (hne : x.data ≠ [])
    (hbr : ∀ c ∈ x.data, c ≠ '[' ∧ c ≠ ']')
    (hhd : x.data.head? ≠ some '|') :
    ParseWikiLinks ("[[" ++ x ++ "|" ++ desc ++ "]]") = ParseWikiLinks ("[[" ++ x ++ "]]") := by
  obtain ⟨d, hd⟩ := trim_brackets_pipe x desc hne hbr
  rw [ParseWikiLinks, ParseWikiLinks, hd, trim_brackets x hbr,
    splitDescr_append_pipe x d hne hhd]

/-- C6 witness: `[[link|description]]` parses exactly like `[[link]]` (the
`TestMatchParseWikiLinks` case). -/
theorem parseWikiLinks_ignores_description_witness :
    ParseWikiLinks "[[link|description]]" = ParseWikiLinks "[[link]]" := by
  have h := parseWikiLinks_ignores_description "link" "description"
    (by decide) (by decide) (by decide)
  simpa using h

/-- C7 counterexample: `x = a|b` has no extension, yet `[[a|b]]` parses to
`a.wiki`, not `a|b.wiki` — the description split fires inside `x`. -/
theorem parseWikiLinks_extension_counterexample :
    filepath_Ext "a|b" = "" ∧ ParseWikiLinks "[[a|b]]" = "a.wiki" ∧
    ParseWikiLinks "[[a|b]]" ≠ "a|b" ++ ".wiki" := by
  refine ⟨rfl, rfl, by decide⟩

/-- C7 (amended): for every bracket-free raw-match interior `x` containing
no `|` after its first character, `[[x]]` parses to `x ++ ".wiki"` when
`x` has no extension, and to `x` unchanged when `x` already ends in `.md`
or `.wiki`. -/
theorem parseWikiLinks_appends_wiki (x : String)
    (hbr : ∀ c ∈ x.data, c ≠ '[' ∧ c ≠ ']')
    (hp : '|' ∉ x.data.tail) :
    (filepath_Ext x = "" → ParseWikiLinks ("[[" ++ x ++ "]]") = x ++ ".wiki") ∧
    ((filepath_Ext x = ".md" ∨ filepath_Ext x = ".wiki") →
      ParseWikiLinks ("[[" ++ x ++ "]]") = x) := by
  have hsplit : splitDescr (strings_Trim ("[[" ++ x ++ "]]") "[]") = x := by
    rw [trim_brackets x hbr, splitDescr_no_pipe_tail x hp]
  constructor
  · intro hext
    rw [ParseWikiLinks]
    simp only [hsplit, hext]
    rw [if_pos (by constructor <;> simp)]
  · intro hext
    rw [ParseWikiLinks]
    simp only [hsplit]
    rcases hext with hext | hext <;> rw [hext] <;> simp

/-- C7 witness: `[[link]]` parses to `link.wiki` and `[[link.md]]` stays
`link.md` (the `TestMatchParseWikiLinks` cases). -/
theorem parseWikiLinks_appends_wiki_witness :
    ParseWikiLinks "[[link]]" = "link" ++ ".wiki" ∧
    ParseWikiLinks "[[link.md]]" = "link.md" := by
  constructor
  · exact (parseWikiLinks_appends_wiki "link" (by decide) (by decide)).1 (by rfl)
  · exact (parseWikiLinks_appends_wiki "link.md" (by decide) (by decide)).2 (Or.inl (by rfl))

theorem glue_cons_gap (c : Char) (g : List Char) (gs ms : List (List Char))
    (h : gs.length = ms.length) :
    glue ((c :: g) :: gs) ms = c :: glue (g :: gs) ms := by
  cases ms with
  | nil =>
    have : gs = [] := List.length_eq_zero.1 (by simpa using h)
    subst this
    rfl
  | cons m ms =>
    cases gs with
    | nil => simp at h
    | cons g2 gs => simp [glue]

theorem wikiFindAll_decomp_aux :
    ∀ (n : Nat) (cs : List Char), cs.length ≤ n →
      ∃ gaps : List (List Char), gaps.length = (wikiFindAll cs).length + 1 ∧
        glue gaps (wikiFindAll cs) = cs := by
  intro n
  induction n with
  | zero =>
    intro cs h
    have hcs : cs = [] := List.length_eq_zero.1 (by omega)
    subst hcs
    exact ⟨[[]], by simp [wikiFindAll_nil], by simp [wikiFindAll_nil, glue]⟩
  | succ n ih =>
    intro cs hlen
    rcases hm : wikiMatchAt cs with _ | ⟨m, rest⟩
    · cases cs with
      | nil => exact ⟨[[]], by simp [wikiFindAll_nil], by simp [wikiFindAll_nil, glue]⟩
      | cons c tl =>
        rw [wikiFindAll_neg hm]
        obtain ⟨gaps, hg1, hg2⟩ := ih tl (by simp only [List.length_cons] at hlen; omega)
        cases gaps with
        | nil => simp at hg1
        | cons g gs =>
          refine ⟨(c :: g) :: gs, by simpa using hg1, ?_⟩
          rw [glue_cons_gap c g gs (wikiFindAll tl) (by simpa using hg1), hg2]
    · rw [wikiFindAll_pos hm]
      obtain ⟨hcs, hpos⟩ := wikiMatchAt_some hm
      have hr : rest.length ≤ n := by
        have := congrArg List.length hcs
        simp only [List.length_append] at this
        omega
      obtain ⟨gaps, hg1, hg2⟩ := ih rest hr
      refine ⟨[] :: gaps, by simpa using hg1, ?_⟩
      cases hfa : wikiFindAll rest with
      | nil =>
        rw [hfa] at hg1 hg2
        cases gaps with
        | nil => simp at hg1
        | cons g gs =>
          have : gs = [] := List.length_eq_zero.1 (by simpa using hg1)
          subst this
          simp only [glue] at hg2 ⊢
          rw [hg2, hcs]
          simp [glue]
      | cons fm fms =>
        rw [hfa] at hg2
        simp only [glue, List.nil_append]
        rw [hg2, hcs]

theorem markdownFindAll_decomp_aux :
    ∀ (n : Nat) (cs : List Char), cs.length ≤ n →
      ∃ gaps : List (List Char), gaps.length = (markdownFindAll cs).length + 1 ∧
        glue gaps (markdownFindAll cs) = cs := by
  intro n
  induction n with
  | zero =>
    intro cs h
    have hcs : cs = [] := List.length_eq_zero.1 (by omega)
    subst hcs
    exact ⟨[[]], by simp [markdownFindAll_nil], by simp [markdownFindAll_nil, glue]⟩
  | succ n ih =>
    intro cs hlen
    rcases hm : markdownMatchAt cs with _ | ⟨m, rest⟩
    · cases cs with
      | nil => exact ⟨[[]], by simp [markdownFindAll_nil], by simp [markdownFindAll_nil, glue]⟩
      | cons c tl =>
        rw [markdownFindAll_neg hm]
        obtain ⟨gaps, hg1, hg2⟩ := ih tl (by simp only [List.length_cons] at hlen; omega)
        cases gaps with
        | nil => simp at hg1
        | cons g gs =>
          refine ⟨(c :: g) :: gs, by simpa using hg1, ?_⟩
          rw [glue_cons_gap c g gs (markdownFindAll tl) (by simpa using hg1), hg2]
    · rw [markdownFindAll_pos hm]
      obtain ⟨hcs, hpos, _⟩ := markdownMatchAt_some hm
      have hr : rest.length ≤ n := by
        have := congrArg List.length hcs
        simp only [List.length_append] at this
        omega
      obtain ⟨gaps, hg1, hg2⟩ := ih rest hr
      refine ⟨[] :: gaps, by simpa using hg1, ?_⟩
      cases hfa : markdownFindAll rest with
      | nil =>
        rw [hfa] at hg1 hg2
        cases gaps with
        | nil => simp at hg1
        | cons g gs =>
          have : gs = [] := List.length_eq_zero.1 (by simpa using hg1)
          subst this
          simp only [glue] at hg2 ⊢
          rw [hg2, hcs]
          simp [glue]
      | cons fm fms =>
        rw [hfa] at hg2
        simp only [glue, List.nil_append]
        rw [hg2, hcs]

theorem map_data_map_mk (L : List (List Char)) :
    (L.map String.mk).map String.data = L := by
  induction L with
  | nil => rfl
  | cons a tl ih => simp [ih]

/-- C4 counterexample: both capture groups of `markdownref` are greedy, so
on the line `[a](b) [c](d)` the single leftmost match spans from the first
`[` to the last `)` — `MarkdownLinks` returns one match, not two. -/
theorem markdownLinks_two_links_counterexample :
    MarkdownLinks "[a](b) [c](d)" = ["[a](b) [c](d)"] ∧
    (MarkdownLinks "[a](b) [c](d)").length ≠ 2 := by
  refine ⟨rfl, by decide⟩

/-- C4 (amended): for both syntaxes, matching is non-overlapping and
left-to-right — every line splits into alternating gaps and matches, in
order; two disjoint wiki links on one line are returned as two matches;
but because both capture groups of the markdown pattern are greedy, the
line `[a](b) [c](d)` yields a single match spanning both links rather
than two. -/
theorem links_nonoverlapping_leftmost :
    (∀ text : String, ∃ gaps : List (List Char),
        gaps.length = (WikiLinks text).length + 1 ∧
        glue gaps ((WikiLinks text).map String.data) = text.data) ∧
    (∀ text : String, ∃ gaps : List (List Char),
        gaps.length = (MarkdownLinks text).length + 1 ∧
        glue gaps ((MarkdownLinks text).map String.data) = text.data) ∧
    WikiLinks "[[a]] [[c]]" = ["[[a]]", "[[c]]"] ∧
    MarkdownLinks "[a](b) [c](d)" = ["[a](b) [c](d)"] := by
  refine ⟨fun text => ?_, fun text => ?_, rfl, rfl⟩
  · obtain ⟨gaps, h1, h2⟩ := wikiFindAll_decomp_aux text.data.length text.data le_rfl
    refine ⟨gaps, by simpa [WikiLinks] using h1, ?_⟩
    rw [WikiLinks, map_data_map_mk]
    exact h2
  · obtain ⟨gaps, h1, h2⟩ := markdownFindAll_decomp_aux text.data.length text.data le_rfl
    refine ⟨gaps, by simpa [MarkdownLinks] using h1, ?_⟩
    rw [MarkdownLinks, map_data_map_mk]
    exact h2

theorem strings_Index_some_of_mem {l : List Char} {c : Char} (h : c ∈ l) :
    ∃ i, strings_Index l c = some i := by
  induction l with
  | nil => simp at h
  | cons a tl ih =>
    by_cases ha : a = c
    · exact ⟨0, by rw [strings_Index, if_pos ha]⟩
    · have : c ∈ tl := by
        rcases List.mem_cons.1 h with h | h
        · exact absurd h.symm ha
        · exact h
      obtain ⟨i, hi⟩ := ih this
      exact ⟨i + 1, by rw [strings_Index, if_neg ha, hi]; rfl⟩

theorem parseMarkdownLinks_isSome_of_paren {link : String} (h : '(' ∈ link.data) :
    (ParseMarkdownLinks link).isSome = true := by
  obtain ⟨i, hi⟩ := strings_Index_some_of_mem h
  simp only [ParseMarkdownLinks, hi]
  split
  · rfl
  · split <;> rfl

theorem markdownFindAll_mem_paren :
    ∀ (n : Nat) (cs : List Char), cs.length ≤ n →
      ∀ mc ∈ markdownFindAll cs, '(' ∈ mc := by
  intro n
  induction n with
  | zero =>
    intro cs h mc hmc
    have hcs : cs = [] := List.length_eq_zero.1 (by omega)
    subst hcs
    rw [markdownFindAll_nil] at hmc
    simp at hmc
  | succ n ih =>
    intro cs hlen mc hmc
    rcases hm : markdownMatchAt cs with _ | ⟨m, rest⟩
    · cases cs with
      | nil =>
        rw [markdownFindAll_nil] at hmc
        simp at hmc
      | cons c tl =>
        rw [markdownFindAll_neg hm] at hmc
        exact ih tl (by simp only [List.length_cons] at hlen; omega) mc hmc
    · rw [markdownFindAll_pos hm] at hmc
      obtain ⟨hcs, hpos, hparen⟩ := markdownMatchAt_some hm
      rcases List.mem_cons.1 hmc with h | h
      · subst h
        exact hparen
      · have hr : rest.length ≤ n := by
          have := congrArg List.length hcs
          simp only [List.length_append] at this
          omega
        exact ih rest hr mc h

/-- C10: `ParseMarkdownLinks` "panics" (Go slices with index `-1`) exactly
on inputs without `(`; on every input containing a `(` it returns
normally, and every match produced by `MarkdownLinks` contains a `(`
(the regex requires one), so the panic branch is unreachable in the
`Links` pipeline. -/
theorem parseMarkdownLinks_no_panic :
    (∀ link : String, '(' ∉ link.data → ParseMarkdownLinks link = none) ∧
    (∀ link : String, '(' ∈ link.data → (ParseMarkdownLinks link).isSome = true) ∧
    (∀ text m : String, m ∈ MarkdownLinks text →
      (ParseMarkdownLinks m).isSome = true) := by
  refine ⟨fun link h => ?_, fun link h => parseMarkdownLinks_isSome_of_paren h,
    fun text m hm => ?_⟩
  · rw [ParseMarkdownLinks, strings_Index_eq_none h]
  · obtain ⟨mc, hmc, hmk⟩ := List.mem_map.1 hm
    apply parseMarkdownLinks_isSome_of_paren
    rw [← hmk]
    exact markdownFindAll_mem_paren (text.data.length) text.data le_rfl mc hmc

/-- C10 witness: a link without `(` panics (`none`), one with `(` parses. -/
theorem parseMarkdownLinks_no_panic_witness :
    ParseMarkdownLinks "nolink" = none ∧
    (ParseMarkdownLinks "[l](u)").isSome = true := by
  constructor
  · exact parseMarkdownLinks_no_panic.1 "nolink" (by decide)
  · exact parseMarkdownLinks_no_panic.2.1 "[l](u)" (by decide)

end Vimwikigraph
